import Mathlib

/-!
Verification of the CloudIPAM address-hierarchy engine.

Shallow embedding of the repository's core code:
  * `src/src/cidrtree.py`  (classes `CIDRNode`, `CIDRTree`)
  * `src/src/ipam.py`      (classes `CIDR`, `IPAM`)

Python `ipaddress` networks are modelled as records of IP version, numeric
network address and prefix length; Python dictionaries (which preserve
insertion order) are modelled as association lists; object references between
nodes are modelled as canonical-key references, following the arena-of-nodes
reading of the data structure.  Machine integers do not occur: Python integers
are unbounded, so `Nat` is used directly.
-/

/-- IP version of an address or network (`ipaddress` objects carry `version`
4 or 6). -/
inductive IPVersion where
  | v4
  | v6
deriving DecidableEq

/-- Address width in bits (`_max_prefixlen` of the `ipaddress` classes). -/
def ipWidth : IPVersion → Nat
  | .v4 => 32
  | .v6 => 128

/-- An `ipaddress.IPv4Network` / `IPv6Network` value: IP version, numeric
network address (host bits zero for every value the library constructs) and
prefix length.  This is the `_network` field of a `CIDRNode` and the `cidr`
field of an ipam `CIDR` object. -/
structure Block where
  version : IPVersion
  addr : Nat
  prefixlen : Nat
deriving DecidableEq

/-- Numeric `broadcast_address` of a network: for the aligned addresses the
library constructs, `network | hostmask = network + hostmask`. -/
def lastAddr (b : Block) : Nat :=
  b.addr + (2 ^ (ipWidth b.version - b.prefixlen) - 1)

/-- The containment test of `CIDRNode.is_parent_of` (the second, overriding
definition at `cidrtree.py:35`): same IP version, range inclusion on
`network_address`/`broadcast_address`, and strictly shorter prefix.  The same
inline condition is used by `CIDRTree._find_parent` and by the parent scan of
`CIDRTree.build_tree_from_list`. -/
def containsB (a b : Block) : Bool :=
  a.version == b.version &&
  a.addr ≤ b.addr &&
  lastAddr b ≤ lastAddr a &&
  a.prefixlen < b.prefixlen

/-- An `ipaddress` address value (`ip_address` result): version plus numeric
value. -/
structure IPAddrVal where
  version : IPVersion
  val : Nat
deriving DecidableEq

/-- Membership test `ip in network` (`_BaseNetwork.__contains__`): `False`
when the versions differ, otherwise `network_address <= ip <=
broadcast_address`. -/
def ipInNetwork (a : IPAddrVal) (b : Block) : Bool :=
  a.version == b.version && b.addr ≤ a.val && a.val ≤ lastAddr b

/-- Non-strict `subnet_of` range test used by `_is_subnet_of` once the
version guard has passed: `b.network_address <= a.network_address` and
`a.broadcast_address <= b.broadcast_address`. -/
def rangeSub (a b : Block) : Bool :=
  b.addr ≤ a.addr && lastAddr a ≤ lastAddr b

/-- The `CIDR.is_child_of` call (`ipam.py:80`), which delegates to
`ipaddress._is_subnet_of`: raises `TypeError` (modelled as `.error ()`) when
the versions differ, otherwise returns the range test. -/
def isChildOfE (a b : Block) : Except Unit Bool :=
  if a.version = b.version then .ok (rangeSub a b) else .error ()

/- ### String parsing (model of the `ipaddress` constructors)

The parsers below model `ipaddress.ip_address` and the strict
`ipaddress.ip_network` constructor on their textual inputs, following the
CPython implementation (`_parse_octet`, `_parse_hextet`,
`_ip_int_from_string`, `_prefix_from_prefix_string`).  Not modelled, as
documented deliberate scope of the embedding: IPv6 zone identifiers
(`%scope`) and dotted-netmask / hostmask prefix notations. -/

/-- Split a character list at every occurrence of `sep`, keeping empty
pieces, as Python `str.split(sep)` does (helper, tail state is the reversed
current piece). -/
def splitOnAux (sep : Char) : List Char → List Char → List (List Char)
  | [], acc => [acc.reverse]
  | c :: t, acc =>
    if c == sep then acc.reverse :: splitOnAux sep t []
    else splitOnAux sep t (c :: acc)

/-- Split a character list at every occurrence of `sep` (Python
`str.split(sep)`). -/
def splitOnChar (sep : Char) (cs : List Char) : List (List Char) :=
  splitOnAux sep cs []

/-- Decimal value of a digit list (callers have already checked the digits). -/
def digitsVal (cs : List Char) : Nat :=
  cs.foldl (fun a c => a * 10 + (c.toNat - 48)) 0

/-- One dotted-quad octet, as `ipaddress._parse_octet`: one to three ASCII
digits, no leading zero, value at most 255. -/
def parseOctet : List Char → Option Nat
  | [] => none
  | c :: cs =>
    if !((c :: cs).all Char.isDigit) then none
    else if 2 < cs.length then none
    else if !cs.isEmpty && c == '0' then none
    else if digitsVal (c :: cs) ≤ 255 then some (digitsVal (c :: cs))
    else none

/-- Numeric value of a dotted-quad IPv4 address string
(`IPv4Address._ip_int_from_string`): exactly four valid octets. -/
def parseIPv4Addr (cs : List Char) : Option Nat :=
  match splitOnChar '.' cs with
  | [a, b, c, d] => do
    let va ← parseOctet a
    let vb ← parseOctet b
    let vc ← parseOctet c
    let vd ← parseOctet d
    pure (va * 16777216 + vb * 65536 + vc * 256 + vd)
  | _ => none

/-- Value of one hexadecimal digit character, if it is one. -/
def hexVal (c : Char) : Option Nat :=
  let n := c.toNat
  if 48 ≤ n && n ≤ 57 then some (n - 48)
  else if 97 ≤ n && n ≤ 102 then some (n - 87)
  else if 65 ≤ n && n ≤ 70 then some (n - 55)
  else none

/-- One IPv6 group, as `ipaddress._parse_hextet`: one to four hex digits
(leading zeros allowed). -/
def parseHextet (cs : List Char) : Option Nat :=
  if cs.isEmpty || 4 < cs.length then none
  else cs.foldl (fun acc c => do
    let a ← acc
    let d ← hexVal c
    pure (a * 16 + d)) (some 0)

/-- Hex digit character of a value below 16 (Python `'%x'` formatting). -/
def hexDigitChar (n : Nat) : Char :=
  if n < 10 then Char.ofNat (48 + n) else Char.ofNat (87 + n)

/-- Minimal lowercase hex rendering of a 16-bit value, as Python `'%x' % n`;
used for the embedded dotted-quad rewrite of the IPv6 parser. -/
def natToHex4 (n : Nat) : List Char :=
  let ds := [n / 4096 % 16, n / 256 % 16, n / 16 % 16, n % 16]
  match ds.dropWhile (· == 0) with
  | [] => ['0']
  | l => l.map hexDigitChar

/-- Accumulate a list of 16-bit groups into one integer (the shift-and-or
loops of `IPv6Address._ip_int_from_string`). -/
def assembleHextets (l : List (List Char)) : Option Nat :=
  l.foldl (fun acc p => do
    let a ← acc
    let h ← parseHextet p
    pure (a * 65536 + h)) (some 0)

/-- Numeric value of an IPv6 address string, following
`IPv6Address._ip_int_from_string`: split on `:`, rewrite a trailing
dotted-quad into two groups, locate the at-most-one internal `::` gap,
validate the group counts and assemble.  Zone identifiers are outside the
modelled scope. -/
def parseIPv6Addr (cs : List Char) : Option Nat :=
  let parts0 := splitOnChar ':' cs
  if parts0.length < 3 then none
  else
    let subst : Option (List (List Char)) :=
      match parts0.getLast? with
      | some lp =>
        if lp.contains '.' then
          match parseIPv4Addr lp with
          | none => none
          | some v4 =>
            some (parts0.dropLast ++ [natToHex4 (v4 / 65536), natToHex4 (v4 % 65536)])
        else some parts0
      | none => none
    match subst with
    | none => none
    | some parts =>
      let n := parts.length
      if 9 < n then none
      else
        match (List.range n).filter
            (fun i => decide (0 < i) && decide (i < n - 1) && (parts.getD i []).isEmpty) with
        | [] =>
          if n ≠ 8 then none
          else if (parts.headD []).isEmpty then none
          else if (parts.getLastD []).isEmpty then none
          else assembleHextets parts
        | [i] =>
          let hi? : Option Nat :=
            if (parts.headD []).isEmpty then (if i = 1 then some 0 else none)
            else some i
          let lo? : Option Nat :=
            if (parts.getLastD []).isEmpty then (if n - i - 1 = 1 then some 0 else none)
            else some (n - i - 1)
          match hi?, lo? with
          | some hi, some lo =>
            let skipped := 8 - (hi + lo)
            if hi + lo ≥ 8 then none
            else do
              let hiVal ← assembleHextets (parts.take hi)
              let loVal ← assembleHextets (parts.drop (n - lo))
              pure (hiVal * 2 ^ (16 * (skipped + lo)) + loVal)
          | _, _ => none
        | _ => none

/-- Model of `ipaddress.ip_address(s)`: try IPv4, then IPv6, else the
`ValueError` is modelled as `none`. -/
def parseIPAddr (s : String) : Option IPAddrVal :=
  match parseIPv4Addr s.data with
  | some v => some ⟨.v4, v⟩
  | none =>
    match parseIPv6Addr s.data with
    | some v => some ⟨.v6, v⟩
    | none => none

/-- A prefix-length string, as `_prefix_from_prefix_string`: ASCII digits
only, and no leading zero (`str(int(s)) == s`). -/
def parsePrefixStr (cs : List Char) : Option Nat :=
  match cs with
  | [] => none
  | c :: rest =>
    if !((c :: rest).all Char.isDigit) then none
    else if !rest.isEmpty && c == '0' then none
    else some (digitsVal (c :: rest))

/-- Strict `IPv4Network` constructor on `addr` and optional prefix part:
prefix defaults to 32, must be at most 32, and any set host bit raises
`ValueError` (strict mode), modelled as `none`. -/
def parseNetV4 (a : List Char) (p : Option (List Char)) : Option Block :=
  match parseIPv4Addr a with
  | none => none
  | some v =>
    let pl? := match p with
      | none => some 32
      | some ps => parsePrefixStr ps
    match pl? with
    | none => none
    | some pl =>
      if pl ≤ 32 && v % 2 ^ (32 - pl) == 0 then some ⟨.v4, v, pl⟩ else none

/-- Strict `IPv6Network` constructor, as `parseNetV4` but 128 bits wide. -/
def parseNetV6 (a : List Char) (p : Option (List Char)) : Option Block :=
  match parseIPv6Addr a with
  | none => none
  | some v =>
    let pl? := match p with
      | none => some 128
      | some ps => parsePrefixStr ps
    match pl? with
    | none => none
    | some pl =>
      if pl ≤ 128 && v % 2 ^ (128 - pl) == 0 then some ⟨.v6, v, pl⟩ else none

/-- Model of strict `ipaddress.ip_network(s)`: split off the `/` part (at
most one slash), try `IPv4Network`, then `IPv6Network`; a failure of both is
the `ValueError`, modelled as `none`. -/
def parseNetwork (s : String) : Option Block :=
  match splitOnChar '/' s.data with
  | [a] => (parseNetV4 a none).orElse (fun _ => parseNetV6 a none)
  | [a, p] => (parseNetV4 a (some p)).orElse (fun _ => parseNetV6 a (some p))
  | _ => none

/- ### The CIDR forest (`CIDRTree`) -/

/-- State of a `CIDRTree`: `nodes` is `cidr_map` in dictionary insertion
order, carrying each node's key string and its parsed `_network`; `parentOf`
and `childrenOf` are the `parent` and `children` attributes of the node
objects, keyed by the node's key string; `roots` is the root list.  Object
references are represented by key strings, which identify node objects
uniquely because `cidr_map` holds exactly one node per key. -/
structure Forest where
  nodes : List (String × Block)
  parentOf : List (String × Option String)
  childrenOf : List (String × List String)
  roots : List String
deriving DecidableEq

/-- A fresh `CIDRTree()`. -/
def emptyForest : Forest := ⟨[], [], [], []⟩

/-- Association-list lookup, first entry with the key (attribute access on
the unique node object of a key). -/
def alook {α : Type} (k : String) : List (String × α) → Option α
  | [] => none
  | e :: t => if e.1 = k then some e.2 else alook k t

/-- Association-list update of the first entry with the given key (attribute
mutation; the append case for an absent key does not occur on forests the
operations build). -/
def aset {α : Type} (k : String) (v : α) : List (String × α) → List (String × α)
  | [] => [(k, v)]
  | e :: t => if e.1 = k then (k, v) :: t else e :: aset k v t

/-- The scan of `CIDRTree._find_parent`: iterate `cidr_map` in insertion
order (the new node already inserted, and skipped by its key), keeping the
containing network with the greatest prefix length, first seen wins on equal
prefix lengths.  The parent-selection loop of `build_tree_from_list` is the
same scan: its `parent_prefix_len` starts at -1 and a candidate must strictly
improve it, which is the same keep-first-maximum rule. -/
def findParentScan (entries : List (String × Block)) (s : String) (b : Block) :
    Option (String × Block) :=
  entries.foldl (fun acc e =>
    if e.1 = s then acc
    else if containsB e.2 b then
      match acc with
      | none => some e
      | some pe => if pe.2.prefixlen < e.2.prefixlen then some e else acc
    else acc) none

/-- One iteration of the reparenting loop at the end of `CIDRTree.add_cidr`:
detach `child` from its current parent's child list (when it has one),
append it to the new node's child list, set its parent to the new node, and
remove it from the root list when present (`list.remove` drops the first
occurrence; a node occurs at most once). -/
def reparentStep (s : String)
    (acc : List (String × Option String) × List (String × List String) × List String)
    (child : String) :
    List (String × Option String) × List (String × List String) × List String :=
  let po := acc.1
  let co := acc.2.1
  let rts := acc.2.2
  let co1 := match alook child po with
    | some (some pk) => aset pk (((alook pk co).getD []).erase child) co
    | _ => co
  let co2 := aset s (((alook s co1).getD []) ++ [child]) co1
  (aset child (some s) po, co2, rts.erase child)

/-- Model of `CIDRTree.add_cidr` on a string argument.  Early return when the
key is already in `cidr_map`; a parse failure in the `CIDRNode` constructor
is the caught `ValueError` path, which leaves the tree unchanged (the node
had not yet been inserted).  Otherwise: collect every existing node the new
network strictly contains, insert the node, find its parent by the
longest-prefix scan and attach it (a freshly constructed node object is never
in `roots`, so the root-removal test of the attach branch never fires), then
reparent each collected node under the new one. -/
def addCidr (f : Forest) (s : String) : Forest :=
  if f.nodes.any (fun e => e.1 = s) then f
  else
    match parseNetwork s with
    | none => f
    | some b =>
      let toRemove := (f.nodes.filter (fun e => containsB b e.2)).map (·.1)
      let nodes1 := f.nodes ++ [(s, b)]
      let f1 : Forest :=
        match findParentScan nodes1 s b with
        | none =>
          ⟨nodes1, f.parentOf ++ [(s, none)], f.childrenOf ++ [(s, [])],
            f.roots ++ [s]⟩
        | some pe =>
          ⟨nodes1, f.parentOf ++ [(s, some pe.1)],
            (aset pe.1 (((alook pe.1 f.childrenOf).getD []) ++ [s]) f.childrenOf)
              ++ [(s, [])],
            f.roots⟩
      match toRemove.foldl (reparentStep s) (f1.parentOf, f1.childrenOf, f1.roots) with
      | (po, co, rts) => ⟨nodes1, po, co, rts⟩

/-- Whether sorting the entries would compare two networks of different IP
version but equal prefix length: the Python sort key is the tuple
`(prefixlen, network_address)`, and comparing the addresses of an
`IPv4Network` and an `IPv6Network` raises `TypeError`.  A comparison sort
must order such a tied pair by comparing the pair itself, so the sort raises
exactly when such a pair exists in the input. -/
def crossTie (entries : List (String × Block)) : Bool :=
  entries.any (fun a => entries.any (fun b =>
    (a.2.version != b.2.version) && (a.2.prefixlen == b.2.prefixlen)))

/-- Numeric index of an IP version, used to make the sort order total. -/
def vIdx : IPVersion → Nat
  | .v4 => 0
  | .v6 => 1

/-- Sort order of `build_tree_from_list`: ascending `(prefixlen,
network_address)`.  On the lists the build actually sorts without a
`TypeError` (no cross-version prefix-length tie), entries of equal prefix
length share a version, so inserting the version between the two Python key
components never changes the order; it makes the relation total in Lean. -/
def entryLE (a b : String × Block) : Prop :=
  a.2.prefixlen < b.2.prefixlen ∨
    (a.2.prefixlen = b.2.prefixlen ∧
      (vIdx a.2.version < vIdx b.2.version ∨
        (vIdx a.2.version = vIdx b.2.version ∧ a.2.addr ≤ b.2.addr)))

instance : DecidableRel entryLE := fun a b => by
  unfold entryLE
  exact inferInstance

instance : IsTotal (String × Block) entryLE := by
  constructor
  intro a b
  unfold entryLE
  omega

instance : IsTrans (String × Block) entryLE := by
  constructor
  intro a b c hab hbc
  unfold entryLE at hab hbc ⊢
  omega

/-- One insertion of the post-sort loop of `CIDRTree.build_tree_from_list`:
skip keys already present, otherwise insert the node and attach it to the
containing network of greatest prefix length among all inserted nodes, or to
the root list. -/
def buildInsert (f : Forest) (e : String × Block) : Forest :=
  if f.nodes.any (fun x => x.1 = e.1) then f
  else
    let nodes1 := f.nodes ++ [e]
    match findParentScan nodes1 e.1 e.2 with
    | none =>
      ⟨nodes1, f.parentOf ++ [(e.1, none)], f.childrenOf ++ [(e.1, [])],
        f.roots ++ [e.1]⟩
    | some pe =>
      ⟨nodes1, f.parentOf ++ [(e.1, some pe.1)],
        (aset pe.1 (((alook pe.1 f.childrenOf).getD []) ++ [e.1]) f.childrenOf)
          ++ [(e.1, [])],
        f.roots⟩

/-- Model of `CIDRTree.build_tree_from_list` on string inputs.  The Bool of
the result records whether the call raised (the caught exception is
re-raised to the caller).  An empty input returns at once.  A `ValueError`
while converting the entries (malformed string), or a `TypeError` while
sorting (cross-version prefix-length tie), happens before the tree is
cleared, so the forest comes back unchanged with the raise flag set.
Otherwise the tree is rebuilt from scratch from the sorted entries; the sort
is modelled by `List.insertionSort` under `entryLE`, which on tie-free lists
produces the unique sorted arrangement that any correct sort produces. -/
def buildTreeFromListS (f : Forest) (l : List String) : Forest × Bool :=
  if l.isEmpty then (f, false)
  else if l.any (fun s => (parseNetwork s).isNone) then (f, true)
  else
    let entries := l.filterMap (fun s => (parseNetwork s).map (fun b => (s, b)))
    if crossTie entries then (f, true)
    else ((List.insertionSort entryLE entries).foldl buildInsert emptyForest, false)

/- ### The ipam store (`IPAM`) -/

instance {ε α : Type} [DecidableEq ε] [DecidableEq α] : DecidableEq (Except ε α) := fun a b =>
  match a, b with
  | .error e1, .error e2 =>
    if h : e1 = e2 then isTrue (h ▸ rfl) else isFalse (fun hh => h (Except.error.inj hh))
  | .error _, .ok _ => isFalse (fun hh => Except.noConfusion hh)
  | .ok _, .error _ => isFalse (fun hh => Except.noConfusion hh)
  | .ok a1, .ok a2 =>
    if h : a1 = a2 then isTrue (h ▸ rfl) else isFalse (fun hh => h (Except.ok.inj hh))

/-- State of an `IPAM` instance as the claims exercise it: `cidrs` is the
dictionary from canonical block string to stored `CIDR` object (modelled by
its parsed network; the opaque `cidr_type` and `tags` payloads play no role
in any claim), in insertion order, and `loaded` is `_cidrs_loaded`. -/
structure IPAMState where
  cidrs : List (String × Block)
  loaded : Bool
deriving DecidableEq

/-- Python `max(containing_cidrs, key=lambda c: c.cidr.prefixlen)`: the
first element of greatest prefix length. -/
def maxByPrefixlen (c : Block) (rest : List Block) : Block :=
  rest.foldl (fun acc x => if acc.prefixlen < x.prefixlen then x else acc) c

/-- Model of `IPAM.find_containing_cidr`.  The state is returned alongside
the result to make explicit that the method never mutates the engine (its
body only reads `self.cidrs`).  An unparsable address string raises
`ValueError` inside the `try`, caught and turned into `None`.  With
`_cidrs_loaded` set, the first most-specific containing block is returned;
otherwise the fallback linear search returns the first containing block in
dictionary insertion order. -/
def findContainingCidr (st : IPAMState) (s : String) : Option Block × IPAMState :=
  match parseIPAddr s with
  | none => (none, st)
  | some ip =>
    if st.loaded then
      match (st.cidrs.map (·.2)).filter (fun b => ipInNetwork ip b) with
      | [] => (none, st)
      | c :: rest => (some (maxByPrefixlen c rest), st)
    else
      ((st.cidrs.map (·.2)).find? (fun b => ipInNetwork ip b), st)

/-- Sequential monadic filter: Python evaluates a comprehension condition
left to right and the first raised exception propagates. -/
def filterE {α : Type} (p : α → Except Unit Bool) : List α → Except Unit (List α)
  | [] => .ok []
  | a :: t =>
    match p a with
    | .error e => .error e
    | .ok b =>
      match filterE p t with
      | .error e => .error e
      | .ok r => .ok (if b then a :: r else r)

/-- Model of `IPAM.get_child_cidrs`.  An absent key returns the empty list.
Otherwise `potential_children` filters the stored blocks by `is_child_of`
against the parent (raising `TypeError` across IP versions) and by canonical
string inequality with the lookup key; the class stores every block under
its canonical string, so that string comparison is the entry-key comparison.
The second, direct-children filter compares only members of
`potential_children`, which the first filter confined to the parent's IP
version, so its `is_child_of` calls cannot raise: it is a plain filter. -/
def getChildCidrs (st : IPAMState) (k : String) : Except Unit (List Block) :=
  match alook k st.cidrs with
  | none => .ok []
  | some parent =>
    match filterE (fun e => (isChildOfE e.2 parent).map (fun b => b && e.1 != k)) st.cidrs with
    | .error e => .error e
    | .ok pot0 =>
      let pot := pot0.map (·.2)
      .ok (pot.filter (fun c => !(pot.any (fun o => (c != o) && rangeSub c o))))

/-- The enumeration of `network.subnets(new_prefix=p)` for `p` in range:
2 ^ (p - prefixlen) consecutive sub-blocks in increasing address order. -/
def subnetList (b : Block) (p : Nat) : List Block :=
  (List.range (2 ^ (p - b.prefixlen))).map
    (fun i => ⟨b.version, b.addr + i * 2 ^ (ipWidth b.version - p), p⟩)

/-- Model of `network.subnets(new_prefix=p)` (CPython `_BaseNetwork.subnets`):
a single-address network yields itself whatever `p` is; `p` below the
prefix length or above the address width raises `ValueError`; otherwise the
partition of the range into blocks of prefix length `p` is yielded in
increasing address order. -/
def subnetsAtLen (b : Block) (p : Nat) : Except Unit (List Block) :=
  if b.prefixlen = ipWidth b.version then .ok [b]
  else if p < b.prefixlen then .error ()
  else if ipWidth b.version < p then .error ()
  else .ok (subnetList b p)

/-- Model of `IPAM.find_available_cidr`: absent parent key gives `None`;
otherwise collect the parent's direct children (exceptions propagate), then
enumerate the sub-blocks of the requested length (exceptions propagate) and
return the first that is not an existing direct child, or `None` when every
one is taken.  The canonical-string set membership of the source is block
equality, the strings being canonical. -/
def findAvailableCidr (st : IPAMState) (k : String) (p : Nat) :
    Except Unit (Option Block) :=
  match alook k st.cidrs with
  | none => .ok none
  | some parent =>
    match getChildCidrs st k with
    | .error e => .error e
    | .ok ch =>
      match subnetsAtLen parent p with
      | .error e => .error e
      | .ok possible => .ok (possible.find? (fun c => !(ch.contains c)))

/-- Strict containment of one network inside another: same IP version, range
inclusion, distinct blocks — the sense in which a stored block is a
descendant of another. -/
def strictSub (a b : Block) : Prop :=
  a.version = b.version ∧ rangeSub a b = true ∧ a ≠ b

instance : ∀ a b, Decidable (strictSub a b) := fun a b => by
  unfold strictSub
  exact inferInstance

/-- The store keys are pairwise distinct (Python dictionary invariant). -/
def storeKeysNodup (st : IPAMState) : Prop := (st.cidrs.map (·.1)).Nodup

/-- Each stored block determines its key: the `IPAM` class keys every entry
by the canonical string of its network, so equal blocks imply equal keys. -/
def storeBlockKeyed (st : IPAMState) : Prop :=
  ∀ e1 ∈ st.cidrs, ∀ e2 ∈ st.cidrs, e1.2 = e2.2 → e1.1 = e2.1

/-- All stored blocks share one IP version (otherwise the `is_child_of`
calls of `get_child_cidrs` raise `TypeError`). -/
def storeOneVersion (st : IPAMState) : Prop :=
  ∀ e1 ∈ st.cidrs, ∀ e2 ∈ st.cidrs, e1.2.version = e2.2.version

instance (st : IPAMState) : Decidable (storeKeysNodup st) := by
  unfold storeKeysNodup
  exact inferInstance

instance (st : IPAMState) : Decidable (storeBlockKeyed st) := by
  unfold storeBlockKeyed
  exact inferInstance

instance (st : IPAMState) : Decidable (storeOneVersion st) := by
  unfold storeOneVersion
  exact inferInstance

/- ### Helper lemmas -/

/-- A key already present in `cidr_map` makes `add_cidr` a no-op. -/
lemma addCidr_mem (g : Forest) (s : String)
    (h : g.nodes.any (fun e => e.1 = s) = true) : addCidr g s = g := by
  unfold addCidr
  simp [h]

/-- A string the `CIDRNode` constructor rejects leaves the tree unchanged. -/
lemma addCidr_parse_none (g : Forest) (s : String)
    (hm : g.nodes.any (fun e => e.1 = s) = false) (hp : parseNetwork s = none) :
    addCidr g s = g := by
  unfold addCidr
  simp [hm, hp]

/-- A successful fresh insertion appends exactly one entry to `cidr_map`. -/
lemma addCidr_nodes (f : Forest) (s : String) (b : Block)
    (hm : f.nodes.any (fun e => e.1 = s) = false) (hp : parseNetwork s = some b) :
    (addCidr f s).nodes = f.nodes ++ [(s, b)] := by
  unfold addCidr
  simp only [hm, hp, Bool.false_eq_true, if_false]

/- ### Claims -/

/-- C8: for all non-duplicate blocks A and B, `contains(A,B)` implies that
`contains(B,A)` is false and that A's prefix length is strictly smaller than
B's; `contains(A,A)` is always false; and blocks of different IP versions
are never related, whatever their numeric ranges. -/
theorem c8_contains_strict_order (A B : Block) :
    (A ≠ B → containsB A B = true →
      containsB B A = false ∧ A.prefixlen < B.prefixlen) ∧
    containsB A A = false ∧
    (A.version ≠ B.version → containsB A B = false) := by
  refine ⟨?_, ?_, ?_⟩
  · intro _ h
    simp only [containsB, Bool.and_eq_true, beq_iff_eq, decide_eq_true_eq] at h
    refine ⟨?_, h.2⟩
    have hnot : ¬ (containsB B A = true) := by
      simp only [containsB, Bool.and_eq_true, beq_iff_eq, decide_eq_true_eq]
      rintro ⟨⟨⟨_, _⟩, _⟩, hp⟩
      have := h.2
      omega
    exact Bool.eq_false_iff.mpr hnot
  · have hnot : ¬ (containsB A A = true) := by
      simp only [containsB, Bool.and_eq_true, beq_iff_eq, decide_eq_true_eq]
      rintro ⟨⟨⟨_, _⟩, _⟩, hp⟩
      omega
    exact Bool.eq_false_iff.mpr hnot
  · intro hv
    have hnot : ¬ (containsB A B = true) := by
      simp only [containsB, Bool.and_eq_true, beq_iff_eq, decide_eq_true_eq]
      rintro ⟨⟨⟨hev, _⟩, _⟩, _⟩
      exact hv hev
    exact Bool.eq_false_iff.mpr hnot

/-- Witness for C8 at 10.0.0.0/8 and 10.1.0.0/16 (and at a pair of blocks of
different IP versions with numerically overlapping ranges). -/
theorem c8_contains_strict_order_witness :
    containsB ⟨.v4, 167772160, 8⟩ ⟨.v4, 167837696, 16⟩ = true ∧
    containsB ⟨.v4, 167837696, 16⟩ ⟨.v4, 167772160, 8⟩ = false ∧
    (8 : Nat) < 16 ∧
    containsB ⟨.v4, 167772160, 8⟩ ⟨.v4, 167772160, 8⟩ = false ∧
    containsB ⟨.v4, 167772160, 8⟩ ⟨.v6, 167772160, 16⟩ = false := by
  have h := c8_contains_strict_order ⟨.v4, 167772160, 8⟩ ⟨.v4, 167837696, 16⟩
  have h1 := h.1 (by decide) (by decide)
  have h2 := (c8_contains_strict_order ⟨.v4, 167772160, 8⟩ ⟨.v6, 167772160, 16⟩).2.2 (by decide)
  exact ⟨by decide, h1.1, h1.2, h.2.1, h2⟩

/-- C9: inserting the same block string twice with `add_cidr` leaves the
forest exactly as after inserting it once — the second call is a no-op on
the root list, the index and every parent and child list. -/
theorem c9_add_cidr_idempotent (f : Forest) (s : String) :
    addCidr (addCidr f s) s = addCidr f s := by
  by_cases hm : f.nodes.any (fun e => e.1 = s) = true
  · rw [addCidr_mem f s hm, addCidr_mem f s hm]
  · have hm' : f.nodes.any (fun e => e.1 = s) = false := Bool.eq_false_iff.mpr hm
    rcases hp : parseNetwork s with _ | b
    · rw [addCidr_parse_none f s hm' hp, addCidr_parse_none f s hm' hp]
    · have hn : (addCidr f s).nodes.any (fun e => e.1 = s) = true := by
        rw [addCidr_nodes f s b hm' hp]
        simp
      exact addCidr_mem (addCidr f s) s hn

/-- C10: a string that does not parse as an IP address makes
`find_containing_cidr` return `None` (the `ValueError` is caught), with the
engine state untouched. -/
theorem c10_find_containing_bad_address (st : IPAMState) (s : String)
    (h : parseIPAddr s = none) :
    findContainingCidr st s = (none, st) := by
  unfold findContainingCidr
  rw [h]

/-- Witness for C10 at an unparsable string and a nonempty store. -/
theorem c10_find_containing_bad_address_witness :
    parseIPAddr "not-an-ip" = none ∧
    findContainingCidr ⟨[("10.0.0.0/8", ⟨.v4, 167772160, 8⟩)], true⟩ "not-an-ip" =
      (none, ⟨[("10.0.0.0/8", ⟨.v4, 167772160, 8⟩)], true⟩) :=
  ⟨by decide,
    c10_find_containing_bad_address ⟨[("10.0.0.0/8", ⟨.v4, 167772160, 8⟩)], true⟩
      "not-an-ip" (by decide)⟩

/-- C1 (failing run): inserting 10.1.0.0/16, then 10.1.1.0/24 (child of the
/16), then the less specific 10.0.0.0/8 makes `add_cidr` reparent the /24
directly under the /8, although its current parent /16 is strictly more
specific than the new /8 block and still in the tree — the claimed filter on
the reparented set does not exist in the code, and the forest invariant is
broken after the call returns. -/
theorem c1_reparent_steals_nested_child :
    alook "10.1.1.0/24"
      (addCidr (addCidr (addCidr emptyForest "10.1.0.0/16") "10.1.1.0/24")
        "10.0.0.0/8").parentOf = some (some "10.0.0.0/8") ∧
    alook "10.1.1.0/24"
      (addCidr (addCidr emptyForest "10.1.0.0/16") "10.1.1.0/24").parentOf =
      some (some "10.1.0.0/16") ∧
    alook "10.1.0.0/16"
      (addCidr (addCidr (addCidr emptyForest "10.1.0.0/16") "10.1.1.0/24")
        "10.0.0.0/8").nodes = some ⟨.v4, 167837696, 16⟩ ∧
    containsB ⟨.v4, 167837696, 16⟩ ⟨.v4, 167837952, 24⟩ = true ∧
    (⟨.v4, 167772160, 8⟩ : Block).prefixlen < (⟨.v4, 167837696, 16⟩ : Block).prefixlen := by
  decide

/-- C2 (counterexample): the constructor is strict, so the block string
10.1.2.3/24, which has host bits set, does not construct at all — it does
not construct to the same block as 10.1.2.0/24. -/
theorem c2_host_bits_reject_counterexample :
    parseNetwork "10.1.2.3/24" = none ∧
    parseNetwork "10.1.2.0/24" = some ⟨.v4, 167838208, 24⟩ := by
  decide

/-- C2 (amended): constructing a block from a CIDR string with non-zero host
bits fails with `ValueError` rather than masking; 10.1.2.0/24 constructs,
and inserting both strings into the engine still yields a single node,
because the non-canonical string is rejected and leaves the tree
unchanged. -/
theorem c2_strict_construction_single_node :
    parseNetwork "10.1.2.3/24" = none ∧
    parseNetwork "10.1.2.0/24" = some ⟨.v4, 167838208, 24⟩ ∧
    addCidr (addCidr emptyForest "10.1.2.0/24") "10.1.2.3/24" =
      addCidr emptyForest "10.1.2.0/24" ∧
    (addCidr emptyForest "10.1.2.0/24").nodes =
      [("10.1.2.0/24", ⟨.v4, 167838208, 24⟩)] := by
  decide

/-- C3 (counterexample): a bulk build whose input holds one malformed string
raises and leaves the forest empty, while the same input with the malformed
item omitted builds the one-node forest — the build aborts instead of
skipping the bad item. -/
theorem c3_build_abort_counterexample :
    buildTreeFromListS emptyForest ["10.0.0.0/8", "banana"] = (emptyForest, true) ∧
    buildTreeFromListS emptyForest ["10.0.0.0/8"] =
      (⟨[("10.0.0.0/8", ⟨.v4, 167772160, 8⟩)], [("10.0.0.0/8", none)],
        [("10.0.0.0/8", [])], ["10.0.0.0/8"]⟩, false) := by
  decide

/-- C3 (amended): a bulk build whose input holds any malformed CIDR string
aborts by re-raising the parse error before any mutation of the tree: the
prior forest is returned fully unchanged and no item is processed. -/
theorem c3_build_malformed_aborts_unchanged (f : Forest) (l : List String)
    (h : ∃ s ∈ l, parseNetwork s = none) :
    buildTreeFromListS f l = (f, true) := by
  obtain ⟨s, hs, hp⟩ := h
  have hne : l.isEmpty = false := by
    cases l with
    | nil => cases hs
    | cons a t => rfl
  have hany : l.any (fun s => (parseNetwork s).isNone) = true := by
    rw [List.any_eq_true]
    exact ⟨s, hs, by rw [hp]; rfl⟩
  unfold buildTreeFromListS
  rw [hne, hany]
  rfl

/-- Witness for C3 (amended) on a concrete malformed input. -/
theorem c3_build_malformed_aborts_unchanged_witness :
    buildTreeFromListS emptyForest ["10.0.0.0/8", "10.1.0.0", "x"] = (emptyForest, true) :=
  c3_build_malformed_aborts_unchanged emptyForest ["10.0.0.0/8", "10.1.0.0", "x"]
    ⟨"x", by decide, by decide⟩

/-- C4 (failing run): with 10.0.0.0/8 and 10.1.1.0/24 both stored (in that
insertion order) and the hierarchy not yet built, `find_containing_cidr`
falls back to a linear search and returns the first containing block
10.0.0.0/8 for 10.1.1.5, although the stored 10.1.1.0/24 also contains the
address and is strictly more specific; once `_cidrs_loaded` is set, the same
store returns the /24. -/
theorem c4_fallback_first_match_not_most_specific :
    findContainingCidr
      ⟨[("10.0.0.0/8", ⟨.v4, 167772160, 8⟩), ("10.1.1.0/24", ⟨.v4, 167837952, 24⟩)],
        false⟩ "10.1.1.5" =
      (some ⟨.v4, 167772160, 8⟩,
        ⟨[("10.0.0.0/8", ⟨.v4, 167772160, 8⟩), ("10.1.1.0/24", ⟨.v4, 167837952, 24⟩)],
          false⟩) ∧
    ipInNetwork ⟨.v4, 167837957⟩ ⟨.v4, 167837952, 24⟩ = true ∧
    parseIPAddr "10.1.1.5" = some ⟨.v4, 167837957⟩ ∧
    (⟨.v4, 167772160, 8⟩ : Block).prefixlen < (⟨.v4, 167837952, 24⟩ : Block).prefixlen ∧
    findContainingCidr
      ⟨[("10.0.0.0/8", ⟨.v4, 167772160, 8⟩), ("10.1.1.0/24", ⟨.v4, 167837952, 24⟩)],
        true⟩ "10.1.1.5" =
      (some ⟨.v4, 167837952, 24⟩,
        ⟨[("10.0.0.0/8", ⟨.v4, 167772160, 8⟩), ("10.1.1.0/24", ⟨.v4, 167837952, 24⟩)],
          true⟩) := by
  decide

/- ### Order independence of the bulk build (C5) -/

/-- Permutations agree on `any`. -/
lemma any_perm {α : Type} {l1 l2 : List α} (h : l1.Perm l2) (p : α → Bool) :
    l1.any p = l2.any p := by
  rw [Bool.eq_iff_iff, List.any_eq_true, List.any_eq_true]
  constructor
  · rintro ⟨x, hx, hpx⟩
    exact ⟨x, h.mem_iff.mp hx, hpx⟩
  · rintro ⟨x, hx, hpx⟩
    exact ⟨x, h.mem_iff.mpr hx, hpx⟩

/-- Permutations agree on the sort-tie (`TypeError`) test. -/
lemma crossTie_perm {e1 e2 : List (String × Block)} (h : e1.Perm e2) :
    crossTie e1 = crossTie e2 := by
  unfold crossTie
  rw [Bool.eq_iff_iff, List.any_eq_true, List.any_eq_true]
  constructor
  · rintro ⟨x, hx, hpx⟩
    rw [any_perm h] at hpx
    exact ⟨x, h.mem_iff.mp hx, hpx⟩
  · rintro ⟨x, hx, hpx⟩
    rw [← any_perm h] at hpx
    exact ⟨x, h.mem_iff.mpr hx, hpx⟩

/-- Two sorted lists that are permutations of each other are equal, provided
elements of the first that are related both ways are equal (antisymmetry is
only needed on the members present). -/
lemma sorted_perm_eq_of_ties {α : Type} {r : α → α → Prop} :
    ∀ {l1 l2 : List α}, l1.Perm l2 → l1.Sorted r → l2.Sorted r →
      (∀ a ∈ l1, ∀ b ∈ l1, r a b → r b a → a = b) → l1 = l2 := by
  intro l1
  induction l1 with
  | nil =>
    intro l2 hp _ _ _
    exact (hp.nil_eq).symm ▸ rfl
  | cons a t1 ih =>
    intro l2 hp hs1 hs2 hties
    cases l2 with
    | nil =>
      have := hp.eq_nil
      cases this
    | cons b t2 =>
      have hab : a = b := by
        by_cases heq : a = b
        · exact heq
        · have hbmem1 : b ∈ a :: t1 := hp.mem_iff.mpr (List.mem_cons_self b t2)
          have hamem2 : a ∈ b :: t2 := hp.mem_iff.mp (List.mem_cons_self a t1)
          have hbt1 : b ∈ t1 := by
            rcases List.mem_cons.mp hbmem1 with h | h
            · exact absurd h.symm heq
            · exact h
          have hat2 : a ∈ t2 := by
            rcases List.mem_cons.mp hamem2 with h | h
            · exact absurd h heq
            · exact h
          have hrab : r a b := (List.sorted_cons.mp hs1).1 b hbt1
          have hrba : r b a := (List.sorted_cons.mp hs2).1 a hat2
          exact hties a (List.mem_cons_self a t1) b hbmem1 hrab hrba
      subst hab
      have hp' : t1.Perm t2 := hp.cons_inv
      have ih' := ih hp' (List.sorted_cons.mp hs1).2 (List.sorted_cons.mp hs2).2
        (fun x hx y hy => hties x (List.mem_cons_of_mem a hx) y (List.mem_cons_of_mem a hy))
      rw [ih']

/-- The two IP versions have distinct indices. -/
lemma vIdx_inj {u v : IPVersion} (h : vIdx u = vIdx v) : u = v := by
  cases u <;> cases v <;> first | rfl | (exfalso; simp [vIdx] at h)

/-- Blocks agreeing on all three fields are equal. -/
lemma block_eq_of_fields {b1 b2 : Block} (hv : b1.version = b2.version)
    (ha : b1.addr = b2.addr) (hp : b1.prefixlen = b2.prefixlen) : b1 = b2 := by
  cases b1
  cases b2
  simp_all

/-- C5: the bulk build is order independent: on any two permutations of one
input list denoting a set of unique blocks (one string per block value
appears), `build_tree_from_list` produces identical outcomes — the same
forest, with the same parent assignment, root list and child lists for every
block, and the same raise behaviour. -/
theorem c5_build_order_independent (f : Forest) (l1 l2 : List String)
    (hp : l1.Perm l2)
    (huniq : ∀ s1 ∈ l1, ∀ s2 ∈ l1,
      parseNetwork s1 = parseNetwork s2 → (parseNetwork s1).isSome = true → s1 = s2) :
    buildTreeFromListS f l1 = buildTreeFromListS f l2 := by
  have hemp : l2.isEmpty = l1.isEmpty := by
    have := hp.length_eq
    cases l1 <;> cases l2 <;> simp_all
  have hany : l2.any (fun s => (parseNetwork s).isNone) =
      l1.any (fun s => (parseNetwork s).isNone) := (any_perm hp _).symm
  have hpm : (l1.filterMap (fun s => (parseNetwork s).map (fun b => (s, b)))).Perm
      (l2.filterMap (fun s => (parseNetwork s).map (fun b => (s, b)))) :=
    hp.filterMap _
  have hct : crossTie (l2.filterMap (fun s => (parseNetwork s).map (fun b => (s, b)))) =
      crossTie (l1.filterMap (fun s => (parseNetwork s).map (fun b => (s, b)))) :=
    (crossTie_perm hpm).symm
  have hmem : ∀ e ∈ l1.filterMap (fun s => (parseNetwork s).map (fun b => (s, b))),
      parseNetwork e.1 = some e.2 := by
    intro e he
    obtain ⟨s, _, hfs⟩ := List.mem_filterMap.mp he
    obtain ⟨b, hb, hsb⟩ := Option.map_eq_some'.mp hfs
    cases hsb
    exact hb
  have hsorted :
      List.insertionSort entryLE
        (l1.filterMap (fun s => (parseNetwork s).map (fun b => (s, b)))) =
      List.insertionSort entryLE
        (l2.filterMap (fun s => (parseNetwork s).map (fun b => (s, b)))) := by
    apply sorted_perm_eq_of_ties
      ((List.perm_insertionSort _ _).trans (hpm.trans (List.perm_insertionSort _ _).symm))
      (List.sorted_insertionSort _ _) (List.sorted_insertionSort _ _)
    intro x hx y hy hxy hyx
    have hx1 : x ∈ l1.filterMap (fun s => (parseNetwork s).map (fun b => (s, b))) :=
      (List.perm_insertionSort _ _).mem_iff.mp hx
    have hy1 : y ∈ l1.filterMap (fun s => (parseNetwork s).map (fun b => (s, b))) :=
      (List.perm_insertionSort _ _).mem_iff.mp hy
    have hxparse := hmem x hx1
    have hyparse := hmem y hy1
    have hxs : x.1 ∈ l1 := by
      obtain ⟨s, hs, hfs⟩ := List.mem_filterMap.mp hx1
      obtain ⟨b, _, hsb⟩ := Option.map_eq_some'.mp hfs
      cases hsb
      exact hs
    have hys : y.1 ∈ l1 := by
      obtain ⟨s, hs, hfs⟩ := List.mem_filterMap.mp hy1
      obtain ⟨b, _, hsb⟩ := Option.map_eq_some'.mp hfs
      cases hsb
      exact hs
    have hplen : x.2.prefixlen = y.2.prefixlen := by
      unfold entryLE at hxy hyx
      omega
    have hvidx : vIdx x.2.version = vIdx y.2.version := by
      unfold entryLE at hxy hyx
      omega
    have haddr : x.2.addr = y.2.addr := by
      unfold entryLE at hxy hyx
      omega
    have hblk : x.2 = y.2 := block_eq_of_fields (vIdx_inj hvidx) haddr hplen
    have hstr : x.1 = y.1 := by
      apply huniq x.1 hxs y.1 hys
      · rw [hxparse, hyparse, hblk]
      · rw [hxparse]
        rfl
    exact Prod.ext hstr hblk
  unfold buildTreeFromListS
  simp only [hemp, hany, hct, hsorted]

/-- Witness for C5 on two permutations of the Scenario 1 block set. -/
theorem c5_build_order_independent_witness :
    buildTreeFromListS emptyForest ["10.0.0.0/8", "10.1.0.0/16", "10.1.1.0/24"] =
      buildTreeFromListS emptyForest ["10.1.1.0/24", "10.0.0.0/8", "10.1.0.0/16"] :=
  c5_build_order_independent emptyForest
    ["10.0.0.0/8", "10.1.0.0/16", "10.1.1.0/24"]
    ["10.1.1.0/24", "10.0.0.0/8", "10.1.0.0/16"]
    (by decide) (by decide)

/- ### Direct children (C7) -/

/-- A successful lookup names a stored entry. -/
lemma alook_mem {α : Type} {k : String} {v : α} :
    ∀ {l : List (String × α)}, alook k l = some v → (k, v) ∈ l := by
  intro l
  induction l with
  | nil => intro h; cases h
  | cons e t ih =>
    intro h
    unfold alook at h
    by_cases he : e.1 = k
    · rw [if_pos he] at h
      have hv : e.2 = v := Option.some.inj h
      have hev : (k, v) = e := by
        rw [← he, ← hv]
      rw [hev]
      exact List.mem_cons_self e t
    · rw [if_neg he] at h
      exact List.mem_cons_of_mem e (ih h)

/-- With pairwise distinct keys, lookup agrees with membership. -/
lemma alook_eq_of_nodup {α : Type} :
    ∀ {l : List (String × α)}, (l.map (·.1)).Nodup →
      ∀ {k : String} {v w : α}, (k, v) ∈ l → alook k l = some w → v = w := by
  intro l
  induction l with
  | nil => intro _ k v w hm _; cases hm
  | cons e t ih =>
    intro hnd k v w hm hl
    unfold alook at hl
    rw [List.map_cons] at hnd
    have hnd' := List.nodup_cons.mp hnd
    rcases List.mem_cons.mp hm with hkv | hkv
    · have hk : e.1 = k := by rw [← hkv]
      have hv : e.2 = v := by rw [← hkv]
      rw [if_pos hk] at hl
      rw [← hv]
      exact Option.some.inj hl
    · by_cases he : e.1 = k
      · exfalso
        have hk : k ∈ t.map (·.1) := List.mem_map.mpr ⟨(k, v), hkv, rfl⟩
        rw [he] at hnd'
        exact hnd'.1 hk
      · rw [if_neg he] at hl
        exact ih hnd'.2 hkv hl

/-- When every condition evaluation succeeds, the sequential monadic filter
is the plain filter. -/
lemma filterE_eq_filter {α : Type} {p : α → Except Unit Bool} {q : α → Bool} :
    ∀ {l : List α}, (∀ a ∈ l, p a = .ok (q a)) → filterE p l = .ok (l.filter q) := by
  intro l
  induction l with
  | nil => intro _; rfl
  | cons a t ih =>
    intro h
    unfold filterE
    rw [h a (List.mem_cons_self a t), ih (fun x hx => h x (List.mem_cons_of_mem a hx))]
    by_cases hq : q a = true
    · simp [hq, List.filter_cons]
    · simp [Bool.eq_false_iff.mpr hq, List.filter_cons]

/-- What `get_child_cidrs` computes on a present key in a canonically keyed
single-version store: exactly the stored blocks strictly inside the parent
with no stored block strictly between. -/
lemma getChildCidrs_spec (st : IPAMState) (k : String) (parent : Block)
    (h : alook k st.cidrs = some parent)
    (hnd : storeKeysNodup st) (hbk : storeBlockKeyed st) (hov : storeOneVersion st) :
    ∃ ch, getChildCidrs st k = .ok ch ∧
      ∀ c : Block, c ∈ ch ↔
        (c ∈ st.cidrs.map (·.2) ∧ strictSub c parent ∧
          ¬∃ o ∈ st.cidrs.map (·.2), strictSub c o ∧ strictSub o parent) := by
  have hpm : (k, parent) ∈ st.cidrs := alook_mem h
  have hver : ∀ e ∈ st.cidrs, e.2.version = parent.version :=
    fun e he => hov e he (k, parent) hpm
  have hfe : filterE (fun e => (isChildOfE e.2 parent).map (fun b => b && e.1 != k)) st.cidrs
      = .ok (st.cidrs.filter (fun e => rangeSub e.2 parent && e.1 != k)) := by
    apply filterE_eq_filter
    intro e he
    unfold isChildOfE
    rw [if_pos (hver e he)]
    rfl
  have hgc : getChildCidrs st k =
      .ok (((st.cidrs.filter (fun e => rangeSub e.2 parent && e.1 != k)).map (·.2)).filter
        (fun c => !(((st.cidrs.filter (fun e => rangeSub e.2 parent && e.1 != k)).map
          (·.2)).any (fun o => (c != o) && rangeSub c o)))) := by
    unfold getChildCidrs
    simp only [h, hfe]
  have hpotmem : ∀ c : Block,
      c ∈ (st.cidrs.filter (fun e => rangeSub e.2 parent && e.1 != k)).map (·.2) ↔
        (c ∈ st.cidrs.map (·.2) ∧ strictSub c parent) := by
    intro c
    rw [List.mem_map]
    constructor
    · rintro ⟨e, hef, hec⟩
      obtain ⟨hemem, hcond⟩ := List.mem_filter.mp hef
      rw [Bool.and_eq_true] at hcond
      obtain ⟨hrs, hne⟩ := hcond
      subst hec
      refine ⟨List.mem_map.mpr ⟨e, hemem, rfl⟩, hver e hemem, hrs, ?_⟩
      intro heq
      have hk1 : e.1 = k := hbk e hemem (k, parent) hpm heq
      rw [hk1] at hne
      simp at hne
    · rintro ⟨hcmem, hvc, hrs, hnec⟩
      obtain ⟨e, hemem, hec⟩ := List.mem_map.mp hcmem
      refine ⟨e, List.mem_filter.mpr ⟨hemem, ?_⟩, hec⟩
      rw [Bool.and_eq_true]
      subst hec
      refine ⟨hrs, ?_⟩
      by_cases hek : e.1 = k
      · exfalso
        have he' : (k, e.2) ∈ st.cidrs := by
          rw [← hek]
          exact hemem
        exact hnec (alook_eq_of_nodup hnd he' h)
      · simp [hek]
  rw [hgc]
  refine ⟨_, rfl, ?_⟩
  intro c
  rw [List.mem_filter]
  constructor
  · rintro ⟨hcpot, hq⟩
    obtain ⟨hcmem, hcsub⟩ := (hpotmem c).mp hcpot
    refine ⟨hcmem, hcsub, ?_⟩
    rintro ⟨o, homem, hco, hop⟩
    have hopot := (hpotmem o).mpr ⟨homem, hop⟩
    have hany : ((st.cidrs.filter (fun e => rangeSub e.2 parent && e.1 != k)).map
        (·.2)).any (fun o => (c != o) && rangeSub c o) = true := by
      rw [List.any_eq_true]
      refine ⟨o, hopot, ?_⟩
      rw [Bool.and_eq_true]
      exact ⟨bne_iff_ne.mpr hco.2.2, hco.2.1⟩
    rw [hany] at hq
    simp at hq
  · rintro ⟨hcmem, hcsub, hno⟩
    refine ⟨(hpotmem c).mpr ⟨hcmem, hcsub⟩, ?_⟩
    have hfalse : ((st.cidrs.filter (fun e => rangeSub e.2 parent && e.1 != k)).map
        (·.2)).any (fun o => (c != o) && rangeSub c o) = false := by
      rw [List.any_eq_false]
      intro o hopot
      obtain ⟨homem, hosub⟩ := (hpotmem o).mp hopot
      intro hcontra
      rw [Bool.and_eq_true] at hcontra
      exact hno ⟨o, homem,
        ⟨hcsub.1.trans hosub.1.symm, hcontra.2, bne_iff_ne.mp hcontra.1⟩, hosub⟩
    rw [hfalse]
    rfl

/-- C7 (amended): `get_child_cidrs` on a key absent from the store returns
the empty list rather than failing; on a present key, in a canonically keyed
single-version store, it returns exactly the immediate children — the stored
blocks strictly inside the parent with no stored block strictly between —
and never a transitive descendant. -/
theorem c7_direct_children_query (st : IPAMState) (k : String) :
    (alook k st.cidrs = none → getChildCidrs st k = .ok []) ∧
    (∀ parent, alook k st.cidrs = some parent →
      storeKeysNodup st → storeBlockKeyed st → storeOneVersion st →
      ∃ ch, getChildCidrs st k = .ok ch ∧
        ∀ c : Block, c ∈ ch ↔
          (c ∈ st.cidrs.map (·.2) ∧ strictSub c parent ∧
            ¬∃ o ∈ st.cidrs.map (·.2), strictSub c o ∧ strictSub o parent)) := by
  constructor
  · intro h
    unfold getChildCidrs
    rw [h]
  · intro parent h hnd hbk hov
    exact getChildCidrs_spec st k parent h hnd hbk hov

/-- C7 (counterexample): querying the children of a key absent from the
store returns the empty list normally — no `NotFoundError`, no failure of
any kind is raised. -/
theorem c7_absent_key_counterexample :
    alook "10.0.0.0/24"
      [("10.0.0.0/8", (⟨.v4, 167772160, 8⟩ : Block))] = none ∧
    getChildCidrs ⟨[("10.0.0.0/8", ⟨.v4, 167772160, 8⟩)], true⟩ "10.0.0.0/24" =
      .ok [] := by
  decide

/-- Witness for C7 on a concrete store: an absent key, and a present key
whose immediate children are characterized. -/
theorem c7_direct_children_query_witness :
    getChildCidrs ⟨[("10.0.0.0/8", ⟨.v4, 167772160, 8⟩)], true⟩ "10.1.0.0/16" =
      .ok [] ∧
    ∃ ch,
      getChildCidrs
        ⟨[("10.0.0.0/8", ⟨.v4, 167772160, 8⟩), ("10.1.0.0/16", ⟨.v4, 167837696, 16⟩),
          ("10.1.1.0/24", ⟨.v4, 167837952, 24⟩)], true⟩ "10.0.0.0/8" = .ok ch ∧
      ∀ c : Block, c ∈ ch ↔
        (c ∈ ([("10.0.0.0/8", (⟨.v4, 167772160, 8⟩ : Block)),
            ("10.1.0.0/16", ⟨.v4, 167837696, 16⟩),
            ("10.1.1.0/24", ⟨.v4, 167837952, 24⟩)].map (·.2)) ∧
          strictSub c ⟨.v4, 167772160, 8⟩ ∧
          ¬∃ o ∈ ([("10.0.0.0/8", (⟨.v4, 167772160, 8⟩ : Block)),
              ("10.1.0.0/16", ⟨.v4, 167837696, 16⟩),
              ("10.1.1.0/24", ⟨.v4, 167837952, 24⟩)].map (·.2)),
            strictSub c o ∧ strictSub o ⟨.v4, 167772160, 8⟩) :=
  ⟨(c7_direct_children_query ⟨[("10.0.0.0/8", ⟨.v4, 167772160, 8⟩)], true⟩
      "10.1.0.0/16").1 (by decide),
    (c7_direct_children_query
      ⟨[("10.0.0.0/8", ⟨.v4, 167772160, 8⟩), ("10.1.0.0/16", ⟨.v4, 167837696, 16⟩),
        ("10.1.1.0/24", ⟨.v4, 167837952, 24⟩)], true⟩ "10.0.0.0/8").2
      ⟨.v4, 167772160, 8⟩ (by decide) (by decide) (by decide) (by decide)⟩

/- ### Free-block search (C6) -/

/-- On a list with strictly increasing addresses, `find?` returns the first
match: every element of smaller address fails the test. -/
lemma find?_earlier_fail {q : Block → Bool} :
    ∀ {l : List Block}, l.Pairwise (fun x y => x.addr < y.addr) →
      ∀ {c : Block}, l.find? q = some c →
        ∀ d ∈ l, d.addr < c.addr → q d = false := by
  intro l
  induction l with
  | nil =>
    intro _ c h
    cases h
  | cons a t ih =>
    intro hpw c h d hd hlt
    have hpw' := List.pairwise_cons.mp hpw
    by_cases hqa : q a = true
    · rw [List.find?_cons_of_pos _ hqa] at h
      have hac : a = c := Option.some.inj h
      rcases List.mem_cons.mp hd with hda | hdt
      · subst hda
        subst hac
        omega
      · exfalso
        have := hpw'.1 d hdt
        subst hac
        omega
    · rw [List.find?_cons_of_neg _ (by simpa using hqa)] at h
      rcases List.mem_cons.mp hd with hda | hdt
      · subst hda
        exact Bool.eq_false_iff.mpr hqa
      · exact ih hpw'.2 h d hdt hlt

/-- The sub-block enumeration has strictly increasing addresses. -/
lemma subnetList_mono (b : Block) (p : Nat) :
    (subnetList b p).Pairwise (fun x y => x.addr < y.addr) := by
  unfold subnetList
  rw [List.pairwise_map]
  have hstep : 0 < 2 ^ (ipWidth b.version - p) := Nat.pos_pow_of_pos _ (by omega)
  apply List.Pairwise.imp ?_ (List.pairwise_lt_range _)
  intro i j hij
  simp only
  have h2 : i * 2 ^ (ipWidth b.version - p) < j * 2 ^ (ipWidth b.version - p) :=
    Nat.mul_lt_mul_of_pos_right hij hstep
  omega

/-- C6 (amended): behaviour of `find_available_cidr`.  An absent parent key
returns `None`.  For a present parent key in a canonically keyed,
single-version store whose parent is not a single-address block: a requested
prefix length below the parent's raises `ValueError` (it does not return
`None`); a requested length equal to the parent's returns the parent's own
block; and for a requested length strictly between the parent's prefix
length and the address width, the sub-blocks partitioning the parent's range
are enumerated in increasing address order and the first one that is not an
existing direct child is returned, or `None` when every one is taken. -/
theorem c6_find_available_first_free (st : IPAMState) (k : String) (p : Nat) :
    (alook k st.cidrs = none → findAvailableCidr st k p = .ok none) ∧
    (∀ parent, alook k st.cidrs = some parent →
      storeKeysNodup st → storeBlockKeyed st → storeOneVersion st →
      parent.prefixlen < ipWidth parent.version →
      (p < parent.prefixlen → findAvailableCidr st k p = .error ()) ∧
      (p = parent.prefixlen → findAvailableCidr st k p = .ok (some parent)) ∧
      (parent.prefixlen < p → p ≤ ipWidth parent.version →
        ∃ ch, getChildCidrs st k = .ok ch ∧
          ((findAvailableCidr st k p = .ok none ∧
              ∀ c ∈ subnetList parent p, c ∈ ch) ∨
            (∃ c, findAvailableCidr st k p = .ok (some c) ∧ c ∈ subnetList parent p ∧
              c ∉ ch ∧ ∀ d ∈ subnetList parent p, d.addr < c.addr → d ∈ ch)))) := by
  constructor
  · intro h
    unfold findAvailableCidr
    simp only [h]
  · intro parent h hnd hbk hov hplt
    obtain ⟨ch, hgc, hch⟩ := getChildCidrs_spec st k parent h hnd hbk hov
    refine ⟨?_, ?_, ?_⟩
    · intro hp
      have hsub : subnetsAtLen parent p = .error () := by
        unfold subnetsAtLen
        rw [if_neg (by omega), if_pos hp]
      unfold findAvailableCidr
      simp only [h, hgc, hsub]
    · intro hp
      have hsub : subnetsAtLen parent p = .ok [parent] := by
        unfold subnetsAtLen
        rw [if_neg (by omega), if_neg (by omega), if_neg (by omega)]
        unfold subnetList
        rw [hp]
        have hr1 : List.range 1 = [0] := rfl
        simp [hr1]
      have hpnotin : parent ∉ ch := by
        intro hin
        exact ((hch parent).mp hin).2.1.2.2 rfl
      have hq : (ch.contains parent) = false := by
        rw [← Bool.not_eq_true]
        intro hcon
        exact hpnotin (List.elem_iff.mp hcon)
      unfold findAvailableCidr
      simp only [h, hgc, hsub]
      simp [List.find?, hpnotin]
    · intro hlt hle
      refine ⟨ch, hgc, ?_⟩
      have hsub : subnetsAtLen parent p = .ok (subnetList parent p) := by
        unfold subnetsAtLen
        rw [if_neg (by omega), if_neg (by omega), if_neg (by omega)]
      rcases hfind : (subnetList parent p).find? (fun c => !(ch.contains c)) with _ | c
      · left
        constructor
        · unfold findAvailableCidr
          simp only [h, hgc, hsub, hfind]
        · intro c hc
          have := List.find?_eq_none.mp hfind c hc
          have hcon : ch.contains c = true := by
            rcases hcontains : ch.contains c with _ | _
            · exfalso
              apply this
              rw [hcontains]
              rfl
            · rfl
          exact List.elem_iff.mp hcon
      · right
        refine ⟨c, ?_, List.mem_of_find?_eq_some hfind, ?_, ?_⟩
        · unfold findAvailableCidr
          simp only [h, hgc, hsub, hfind]
        · have hq := List.find?_some hfind
          intro hin
          rw [Bool.not_eq_true'] at hq
          have hc : ch.contains c = true := List.elem_iff.mpr hin
          rw [hc] at hq
          cases hq
        · intro d hd hdlt
          have hfail := find?_earlier_fail (subnetList_mono parent p) hfind d hd hdlt
          have : ch.contains d = true := by
            rcases hcontains : ch.contains d with _ | _
            · exfalso
              rw [hcontains] at hfail
              simp at hfail
            · rfl
          exact List.elem_iff.mp this

/-- C6 (counterexample): requesting a prefix length equal to the parent's
own returns the parent block itself, not a failure and not `None`. -/
theorem c6_equal_prefix_counterexample :
    findAvailableCidr ⟨[("10.0.0.0/8", ⟨.v4, 167772160, 8⟩)], true⟩ "10.0.0.0/8" 8 =
      .ok (some ⟨.v4, 167772160, 8⟩) := by
  decide

/-- Witness for C6 on the Scenario 4 shape scaled down: parent 10.0.0.0/24
with direct child 10.0.0.0/26, requesting /26 sub-blocks. -/
theorem c6_find_available_first_free_witness :
    ∃ ch,
      getChildCidrs
        ⟨[("10.0.0.0/24", ⟨.v4, 167772160, 24⟩), ("10.0.0.0/26", ⟨.v4, 167772160, 26⟩)],
          true⟩ "10.0.0.0/24" = .ok ch ∧
      ((findAvailableCidr
          ⟨[("10.0.0.0/24", ⟨.v4, 167772160, 24⟩), ("10.0.0.0/26", ⟨.v4, 167772160, 26⟩)],
            true⟩ "10.0.0.0/24" 26 = .ok none ∧
          ∀ c ∈ subnetList ⟨.v4, 167772160, 24⟩ 26, c ∈ ch) ∨
        (∃ c, findAvailableCidr
            ⟨[("10.0.0.0/24", ⟨.v4, 167772160, 24⟩), ("10.0.0.0/26", ⟨.v4, 167772160, 26⟩)],
              true⟩ "10.0.0.0/24" 26 = .ok (some c) ∧
          c ∈ subnetList ⟨.v4, 167772160, 24⟩ 26 ∧ c ∉ ch ∧
          ∀ d ∈ subnetList ⟨.v4, 167772160, 24⟩ 26, d.addr < c.addr → d ∈ ch)) :=
  ((c6_find_available_first_free
      ⟨[("10.0.0.0/24", ⟨.v4, 167772160, 24⟩), ("10.0.0.0/26", ⟨.v4, 167772160, 26⟩)],
        true⟩ "10.0.0.0/24" 26).2
    ⟨.v4, 167772160, 24⟩ (by decide) (by decide) (by decide) (by decide)
    (by decide)).2.2 (by decide) (by decide)
